import Mathlib

/-

Verification of `fix_message_labels.py`: a one-shot find-and-replace script.

The script reads one hard-coded file, tests a fixed regular expression
(`old_inbound`) against the content, replaces all matches by a fixed literal
block (`new_inbound`) when the test succeeds, otherwise runs a line-by-line
diagnostic scan for a fixed marker substring, and finally writes the
(possibly unchanged) content back to the same path.

The embedding works on `List Char` (Python `str` is a sequence of Unicode
code points, as is Lean's `String.data`).  The pattern `old_inbound` lies in
the literal fragment of regular expressions: every character is either an
ordinary literal or a backslash-escaped metacharacter.  `parseLiteralPattern`
parses that fragment, `reFind`/`reSearch`/`reSub` give the leftmost-match
search and the non-overlapping global substitution semantics of `re.search`
and `re.sub` for such a pattern, and `containsSubstr`/`replaceAll` are the
plain (regex-free) substring test and literal global replacement that the
refinement theorems compare them with.

-/

set_option maxRecDepth 40000
set_option maxHeartbeats 4000000

namespace AutolumikuFix

/-- The hard-coded target file path (source line 4 and 78). -/
def targetPath : String :=
  "d:\\Project\\auto\\autolumiku\\src\\app\\dashboard\\whatsapp-ai\\conversations\\page.tsx"

/-- The raw regular-expression pattern `old_inbound` (source lines 8-24). -/
def old_inbound : String :=
  "                                \\\x7bmsg\\.direction === \x27inbound\x27 && \\(\n                                  <div className=\"flex items-center space-x-1\\.5 md:space-x-1 mb-1 md:mb-0\\.5\">\n                                    <span className=\"text-\\[11px\\] md:text-\\[10px\\] font-semibold text-green-700\">\n                                      \\\x7bmsg\\.senderType === \x27staff\x27 \\? \x27👨‍💼\x27 : \x27👤\x27\\\x7d\n                                    </span>\n                                    \\\x7bmsg\\.intent && \\(\n                                      <span className=\"text-\\[11px\\] md:text-\\[10px\\] text-gray-500\">\\\x7bmsg\\.intent\\.replace\\(\x27customer_\x27, \x27\x27\\)\\.replace\\(\x27staff_\x27, \x27\x27\\)\\\x7d</span>\n                                    \\)\\\x7d\n                                  </div>\n                                \\)\\\x7d\n                                \\\x7bmsg\\.direction === \x27outbound\x27 && \\(\n                                  <div className=\"flex items-center space-x-1\\.5 md:space-x-1 mb-1 md:mb-0\\.5\">\n                                    <span className=\"text-\\[11px\\] md:text-\\[10px\\] font-semibold text-blue-700\">\n                                      \\\x7bmsg\\.senderType === \x27ai\x27 \\? \x27🤖\x27 : \x27👨‍💼\x27\\\x7d\n                                    </span>\n                                  </div>\n                                \\)\\\x7d"

/-- The replacement text `new_inbound` (source lines 26-62). -/
def new_inbound : String :=
  "                                \x7bmsg.direction === \x27inbound\x27 && (\n                                  <div className=\"flex items-center space-x-1.5 md:space-x-1 mb-1 md:mb-0.5\">\n                                    <span className=\"text-[11px] md:text-[10px] font-semibold text-green-700\">\n                                      👨‍💼 →\n                                    </span>\n                                    <span className=\"text-[11px] md:text-[10px] font-bold text-gray-800\">\n                                      \x7b(() => \x7b\n                                        if (selectedConversation?.isStaff) \x7b\n                                          const intent = msg.intent || \x27\x27;\n                                          if (intent.includes(\x27owner\x27)) return \x27Owner\x27;\n                                          if (intent.includes(\x27admin\x27)) return \x27Admin\x27;\n                                          if (intent.includes(\x27sales\x27) || msg.senderType === \x27staff\x27) return \x27Staff\x27;\n                                          return \x27Staff\x27;\n                                        \x7d\n                                        return \x27Customer\x27;\n                                      \x7d)()\x7d\n                                    </span>\n                                    \x7bmsg.intent && (\n                                      <span className=\"text-[11px] md:text-[10px] text-gray-500\">\n                                        • \x7bmsg.intent.replace(\x27customer_\x27, \x27\x27).replace(\x27staff_\x27, \x27\x27)\x7d\n                                      </span>\n                                    )\x7d\n                                  </div>\n                                )\x7d\n                                \x7bmsg.direction === \x27outbound\x27 && (\n                                  <div className=\"flex items-center space-x-1.5 md:space-x-1 mb-1 md:mb-0.5\">\n                                    <span className=\"text-[11px] md:text-[10px] font-semibold text-blue-700\">\n                                      \x7bmsg.senderType === \x27ai\x27 || msg.aiResponse ? \x27🤖 →\x27 : \x27👨‍💼 →\x27\x7d\n                                    </span>\n                                    <span className=\"text-[11px] md:text-[10px] font-bold text-gray-800\">\n                                      \x7bmsg.senderType === \x27ai\x27 || msg.aiResponse \n                                        ? (aiConfig?.aiName || \x27AI Assistant\x27)\n                                        : \x27Admin\x27\n                                      \x7d\n                                    </span>\n                                  </div>\n                                )\x7d"

/-- The literal text denoted by the pattern `old_inbound` (each backslash-escaped
metacharacter stands for itself); certified against the pattern by `parse_old_inbound`. -/
def old_literal : String :=
  "                                \x7bmsg.direction === \x27inbound\x27 && (\n                                  <div className=\"flex items-center space-x-1.5 md:space-x-1 mb-1 md:mb-0.5\">\n                                    <span className=\"text-[11px] md:text-[10px] font-semibold text-green-700\">\n                                      \x7bmsg.senderType === \x27staff\x27 ? \x27👨‍💼\x27 : \x27👤\x27\x7d\n                                    </span>\n                                    \x7bmsg.intent && (\n                                      <span className=\"text-[11px] md:text-[10px] text-gray-500\">\x7bmsg.intent.replace(\x27customer_\x27, \x27\x27).replace(\x27staff_\x27, \x27\x27)\x7d</span>\n                                    )\x7d\n                                  </div>\n                                )\x7d\n                                \x7bmsg.direction === \x27outbound\x27 && (\n                                  <div className=\"flex items-center space-x-1.5 md:space-x-1 mb-1 md:mb-0.5\">\n                                    <span className=\"text-[11px] md:text-[10px] font-semibold text-blue-700\">\n                                      \x7bmsg.senderType === \x27ai\x27 ? \x27🤖\x27 : \x27👨‍💼\x27\x7d\n                                    </span>\n                                  </div>\n                                )\x7d"

/-- The literal marker substring of the diagnostic scan (source line 73). -/
def marker : String :=
  "msg.senderType === \x27staff\x27 ? \x27👨‍💼\x27 : \x27👤\x27"

/-- Console message printed when the regex matched (source line 67). -/
def msgMatched : String := "✅ Pattern matched and replaced!"

/-- Console message printed when the regex did not match (source line 69). -/
def msgNoMatch : String := "⚠️ Pattern not found with regex. Trying simple string search..."

/-- Console message printed at the end of every completed run (source line 81). -/
def msgDone : String := "Done!"

/-- Console message printed by the diagnostic scan when the marker is found
on (1-indexed) line `k` (source line 74). -/
def foundLine (k : Nat) : String := "Found at line " ++ toString k

/-- The metacharacters of Python regular expressions: a pattern character that
is none of these, or any backslash-escaped punctuation character, matches
itself literally. -/
def isMeta (c : Char) : Bool :=
  ['.', '^', '$', '*', '+', '?', '\x7b', '\x7d', '[', ']', '|', '(', ')', '\\'].contains c

/-- Tail-recursive length (an accumulator keeps concrete evaluation
stack-shallow); equal to `List.length` by `lenAux_eq`. -/
def lenAux : Nat → List Char → Nat
  | n, [] => n
  | n, _ :: t => lenAux (n + 1) t

/-- Worker of `parseLiteralPattern`, accumulating parsed literals in reverse. -/
def parseLitAux (acc : List Char) : List Char → Option (List Char)
  | [] => some acc.reverse
  | '\\' :: [] => none
  | '\\' :: c :: rest =>
    if c.isAlphanum then none else parseLitAux (c :: acc) rest
  | c :: rest =>
    if isMeta c then none else parseLitAux (c :: acc) rest

/-- Parse a pattern of the literal regex fragment into the list of literal
characters it matches: a backslash followed by a non-alphanumeric character
stands for that character, any non-metacharacter stands for itself, and
anything else (an unescaped metacharacter, an alphanumeric escape, or a
trailing backslash) is outside the fragment. -/
def parseLiteralPattern (p : List Char) : Option (List Char) := parseLitAux [] p

/-- Boolean test: the first list is an initial segment of the second. -/
def pfx : List Char → List Char → Bool
  | [], _ => true
  | _ :: _, [] => false
  | a :: l, b :: m => a == b && pfx l m

/-- Leftmost-match search of a literal-fragment regex, the semantics of
`re.search(pattern, s)`: the least index at which the atom list matches,
if any. -/
def reFind (atoms : List Char) : List Char → Option Nat
  | [] => if atoms.isEmpty then some 0 else none
  | c :: t => if pfx atoms (c :: t) then some 0 else (reFind atoms t).map (· + 1)

/-- Whether `re.search` succeeds: the leftmost-match search finds some index. -/
def reSearch (atoms s : List Char) : Bool := (reFind atoms s).isSome

/-- Fuel-driven worker for `reSub`; the fuel only serves termination and is
irrelevant as long as it is at least `s.length` (`reSubGo_congr`). -/
def reSubGo (atoms repl : List Char) : Nat → List Char → List Char
  | 0, s => s
  | fuel + 1, s =>
    match reFind atoms s with
    | none => s
    | some i => s.take i ++ repl ++ reSubGo atoms repl fuel (s.drop (i + atoms.length))

/-- Semantics of `re.sub(pattern, repl, s)` for a literal-fragment pattern and
a replacement containing no backslash: repeatedly find the leftmost match,
splice in the replacement, and continue after it (non-overlapping, global). -/
def reSub (atoms repl s : List Char) : List Char := reSubGo atoms repl (lenAux 0 s) s

/-- Fuel-driven worker for `occs`. -/
def occsGo (atoms : List Char) : Nat → List Char → List Nat
  | 0, _ => []
  | fuel + 1, s =>
    match reFind atoms s with
    | none => []
    | some i => i :: (occsGo atoms fuel (s.drop (i + atoms.length))).map (· + (i + atoms.length))

/-- The start positions, in `s`, of the leftmost non-overlapping matches that
`re.sub` replaces. -/
def occs (atoms s : List Char) : List Nat := occsGo atoms (lenAux 0 s) s

/-- Plain substring test (no regex): some position of `s` starts with `pat`.
This is also the semantics of Python's `in` operator on strings. -/
def containsSubstr (pat : List Char) : List Char → Bool
  | [] => pfx pat []
  | c :: t => pfx pat (c :: t) || containsSubstr pat t

/-- Fuel-driven worker for `replaceAll`; the fuel only serves termination and
is irrelevant as long as it is at least `s.length` (`replaceAllGo_congr`). -/
def replaceAllGo (pat repl : List Char) : Nat → List Char → List Char
  | _, [] => []
  | 0, s => s
  | fuel + 1, c :: t =>
    if pfx pat (c :: t) then repl ++ replaceAllGo pat repl fuel ((c :: t).drop pat.length)
    else c :: replaceAllGo pat repl fuel t

/-- Plain literal global replacement (no regex): scan left to right, replace
each occurrence of `pat` by `repl`, resume after the replaced block. -/
def replaceAll (pat repl s : List Char) : List Char := replaceAllGo pat repl (lenAux 0 s) s

/-- `content.split('\n')` of Python: split at every newline; the result always
has one more entry than the text has newlines (source line 71). -/
def splitNl : List Char → List (List Char)
  | [] => [[]]
  | c :: t =>
    if c = '\n' then [] :: splitNl t
    else
      match splitNl t with
      | [] => [[c]]
      | l :: ls => (c :: l) :: ls

/-- Overlap checker for the reoccurrence analysis: no nonempty suffix of `r`
is an initial segment of `p`.  Instantiated at the concrete pattern and
replacement it rules out matches straddling a replacement boundary. -/
def noSufPfx (p : List Char) : List Char → Bool
  | [] => true
  | c :: t => !pfx (c :: t) p && noSufPfx p t

/-- The loop of source lines 72-75: the 1-indexed number of the first line
containing `marker`, if any. -/
def findMarker : List (List Char) → Option Nat
  | [] => none
  | l :: ls => if containsSubstr marker.data l then some 1 else (findMarker ls).map (· + 1)

/-- The fallback diagnostic scan (source lines 70-75): split the text into
lines and report the first 1-indexed line number whose line contains the
literal marker substring, or nothing when no line does. -/
def diagnosticScan (s : List Char) : Option Nat := findMarker (splitNl s)

/-- The atom list of the compiled pattern `old_inbound`; by
`parse_old_inbound` it is exactly `old_literal.data`. -/
def oldAtoms : List Char := (parseLiteralPattern old_inbound.data).getD []

/-- The in-memory transform of source lines 64-66: substitute when the pattern
matches, otherwise leave the text unchanged. -/
def transform (s : List Char) : List Char :=
  if reSearch oldAtoms s then reSub oldAtoms new_inbound.data s else s

/-- Observable outcome of a completed run: the content written back to
`targetPath`, the console lines in order, and the process exit status. -/
structure RunResult where
  written : List Char
  printed : List String
  exitCode : Nat

/-- One completed run of the script on loaded content (source lines 64-81):
branch on `re.search`, substitute or diagnose, write the content back
unconditionally, print the final message, and exit normally. -/
def run (content : List Char) : RunResult :=
  if reSearch oldAtoms content then
    ⟨reSub oldAtoms new_inbound.data content, [msgMatched, msgDone], 0⟩
  else
    ⟨content,
      msgNoMatch ::
        ((match diagnosticScan content with
          | some k => [foundLine k]
          | none => []) ++ [msgDone]),
      0⟩

/-- Outcome of the initial `open(..., 'r')` (source lines 4-5): either the
decoded content, or an unhandled I/O error (missing, unreadable or
undecodable file). -/
inductive LoadResult where
  | ok (content : List Char)
  | ioError

/-- The file contents the whole process writes to `targetPath`, in order: none
when loading fails (the exception propagates before any write), exactly one
write otherwise. -/
def scriptWrites : LoadResult → List (List Char)
  | .ioError => []
  | .ok c => [(run c).written]

/-- The final outcome of the whole process: `none` when loading fails and the
exception terminates the process, otherwise the completed run. -/
def scriptResult : LoadResult → Option RunResult
  | .ioError => none
  | .ok c => some (run c)

/-! ### Basic characterizations -/

/-- `lenAux` computes the list length shifted by its accumulator. -/
theorem lenAux_eq (s : List Char) : ∀ n : Nat, lenAux n s = n + s.length := by
  induction s with
  | nil => intro n; simp [lenAux]
  | cons c t ih => intro n; simp [lenAux, ih]; omega

/-- The boolean test `pfx` decides the initial-segment relation. -/
theorem pfx_iff (l : List Char) : ∀ m : List Char, pfx l m = true ↔ l <+: m := by
  induction l with
  | nil => intro m; simp [pfx]
  | cons a l ih =>
    intro m
    cases m with
    | nil => simp [pfx]
    | cons b m => simp [pfx, List.cons_prefix_cons, ih m]

/-- The substring test holds exactly when the pattern matches at some
position. -/
theorem containsSubstr_iff (pat : List Char) :
    ∀ s : List Char, containsSubstr pat s = true ↔ ∃ j, pat <+: s.drop j := by
  intro s
  induction s with
  | nil => simp [containsSubstr, pfx_iff]
  | cons c t ih =>
    simp only [containsSubstr, Bool.or_eq_true, pfx_iff, ih]
    constructor
    · rintro (h | ⟨j, h⟩)
      · exact ⟨0, by simpa using h⟩
      · exact ⟨j + 1, by simpa using h⟩
    · rintro ⟨j, h⟩
      cases j with
      | zero => exact Or.inl (by simpa using h)
      | succ j => exact Or.inr ⟨j, by simpa using h⟩

/-- A successful leftmost search really is a match inside the text. -/
theorem reFind_some (atoms : List Char) :
    ∀ (s : List Char) (i : Nat), reFind atoms s = some i →
      atoms <+: s.drop i ∧ i ≤ s.length := by
  intro s
  induction s generalizing atoms with
  | nil =>
    intro i h
    simp only [reFind] at h
    by_cases he : atoms.isEmpty
    · simp [he] at h
      subst h
      simp [List.isEmpty_iff.mp he]
    · simp [he] at h
  | cons c t ih =>
    intro i h
    simp only [reFind] at h
    by_cases hp : pfx atoms (c :: t) = true
    · simp [hp] at h
      subst h
      simpa using (pfx_iff _ _).mp hp
    · rw [Bool.not_eq_true] at hp
      simp [hp] at h
      obtain ⟨j, hj, rfl⟩ := h
      obtain ⟨h1, h2⟩ := ih atoms j hj
      refine ⟨by simpa using h1, by simp; omega⟩

/-- A failed leftmost search means the atoms match at no position. -/
theorem reFind_none (atoms : List Char) (hne : atoms ≠ []) :
    ∀ s : List Char, reFind atoms s = none → ∀ j, ¬ atoms <+: s.drop j := by
  intro s
  induction s with
  | nil =>
    intro _ j hp
    rw [List.drop_nil] at hp
    exact hne (List.eq_nil_of_length_eq_zero (Nat.le_zero.mp hp.length_le))
  | cons c t ih =>
    intro h j
    simp only [reFind] at h
    by_cases hp : pfx atoms (c :: t) = true
    · simp [hp] at h
    · rw [Bool.not_eq_true] at hp
      simp [hp] at h
      cases j with
      | zero =>
        simpa using fun hcon => by rw [(pfx_iff _ _).mpr hcon] at hp; simp at hp
      | succ j => simpa using ih h j

/-- `re.search` succeeds exactly when the plain substring test does: the
regex test for a literal-fragment pattern is substring containment. -/
theorem reSearch_eq_containsSubstr (atoms : List Char) :
    ∀ s : List Char, reSearch atoms s = containsSubstr atoms s := by
  intro s
  induction s with
  | nil => cases atoms <;> simp [reSearch, reFind, containsSubstr, pfx]
  | cons c t ih =>
    by_cases hp : pfx atoms (c :: t) = true
    · simp [reSearch, reFind, containsSubstr, hp]
    · rw [Bool.not_eq_true] at hp
      simp only [reSearch, reFind, containsSubstr, hp, Bool.false_or,
        Bool.false_eq_true, if_false, Option.isSome_map']
      exact ih

/-- Meaning of the overlap checker: no nonempty suffix of `r` is an initial
segment of `p`. -/
theorem noSufPfx_spec (p : List Char) :
    ∀ r : List Char, noSufPfx p r = true →
      ∀ j, r.drop j ≠ [] → ¬ r.drop j <+: p := by
  intro r
  induction r with
  | nil => intro _ j h; simp at h
  | cons c t ih =>
    intro h j hne
    simp only [noSufPfx, Bool.and_eq_true, Bool.not_eq_true'] at h
    obtain ⟨h1, h2⟩ := h
    cases j with
    | zero =>
      intro hcon
      rw [List.drop_zero] at hcon
      rw [(pfx_iff _ _).mpr hcon] at h1
      simp at h1
    | succ j =>
      rw [List.drop_succ_cons] at hne ⊢
      exact ih h2 j hne

/-! ### Fuel irrelevance and step equations -/

/-- A successful leftmost search fits inside the text. -/
theorem reFind_bound (atoms s : List Char) (i : Nat) (h : reFind atoms s = some i) :
    i + atoms.length ≤ s.length := by
  obtain ⟨h1, h2⟩ := reFind_some atoms s i h
  have h3 := h1.length_le
  simp only [List.length_drop] at h3
  omega

/-- A nonempty atom list never matches the empty text. -/
theorem reFind_nil_of_ne (atoms : List Char) (hne : atoms ≠ []) :
    reFind atoms [] = none := by
  have he : atoms.isEmpty = false := by
    cases atoms with
    | nil => exact absurd rfl hne
    | cons a l => rfl
  simp [reFind, he]

/-- The fuel of `replaceAllGo` is irrelevant once it covers the text length. -/
theorem replaceAllGo_congr (pat repl : List Char) (hne : pat ≠ []) :
    ∀ (f₁ : Nat) (s : List Char) (f₂ : Nat), s.length ≤ f₁ → s.length ≤ f₂ →
      replaceAllGo pat repl f₁ s = replaceAllGo pat repl f₂ s := by
  intro f₁
  induction f₁ with
  | zero =>
    intro s f₂ h1 _
    have hs : s = [] := List.eq_nil_of_length_eq_zero (Nat.le_zero.mp h1)
    subst hs
    simp [replaceAllGo]
  | succ f ih =>
    intro s f₂ h1 h2
    cases s with
    | nil => simp [replaceAllGo]
    | cons c t =>
      cases f₂ with
      | zero => simp at h2
      | succ g =>
        have hpat : 0 < pat.length := List.length_pos.mpr hne
        simp only [List.length_cons] at h1 h2
        by_cases hp : pfx pat (c :: t) = true
        · simp only [replaceAllGo, hp, if_true]
          congr 1
          apply ih
          · simp only [List.length_drop, List.length_cons]; omega
          · simp only [List.length_drop, List.length_cons]; omega
        · rw [Bool.not_eq_true] at hp
          simp only [replaceAllGo, hp, Bool.false_eq_true, if_false]
          congr 1
          apply ih
          · omega
          · omega

/-- Base step equation of the literal global replacement. -/
theorem replaceAll_nil (pat repl : List Char) : replaceAll pat repl [] = [] := rfl

/-- Step equation of the literal global replacement at a match. -/
theorem replaceAll_cons_pos (pat repl : List Char) (hne : pat ≠ []) (c : Char)
    (t : List Char) (h : pfx pat (c :: t) = true) :
    replaceAll pat repl (c :: t) =
      repl ++ replaceAll pat repl ((c :: t).drop pat.length) := by
  have hpat : 0 < pat.length := List.length_pos.mpr hne
  simp only [replaceAll, lenAux_eq, Nat.zero_add, List.length_cons]
  simp only [replaceAllGo, h, if_true]
  congr 1
  apply replaceAllGo_congr pat repl hne
  · simp only [List.length_drop, List.length_cons]; omega
  · exact Nat.le_refl _

/-- Step equation of the literal global replacement at a mismatch. -/
theorem replaceAll_cons_neg (pat repl : List Char) (c : Char) (t : List Char)
    (h : pfx pat (c :: t) = false) :
    replaceAll pat repl (c :: t) = c :: replaceAll pat repl t := by
  simp only [replaceAll, lenAux_eq, Nat.zero_add, List.length_cons]
  simp only [replaceAllGo, h, Bool.false_eq_true, if_false]

/-- The fuel of `reSubGo` is irrelevant once it covers the text length. -/
theorem reSubGo_congr (atoms repl : List Char) (hne : atoms ≠ []) :
    ∀ (f₁ : Nat) (s : List Char) (f₂ : Nat), s.length ≤ f₁ → s.length ≤ f₂ →
      reSubGo atoms repl f₁ s = reSubGo atoms repl f₂ s := by
  intro f₁
  induction f₁ with
  | zero =>
    intro s f₂ h1 _
    have hs : s = [] := List.eq_nil_of_length_eq_zero (Nat.le_zero.mp h1)
    subst hs
    cases f₂ with
    | zero => rfl
    | succ g => simp [reSubGo, reFind_nil_of_ne atoms hne]
  | succ f ih =>
    intro s f₂ h1 h2
    cases hF : reFind atoms s with
    | none =>
      cases f₂ with
      | zero =>
        have hs : s = [] := List.eq_nil_of_length_eq_zero (Nat.le_zero.mp h2)
        subst hs
        simp [reSubGo, hF]
      | succ g => simp [reSubGo, hF]
    | some i =>
      have hb := reFind_bound atoms s i hF
      have hpl : 0 < atoms.length := List.length_pos.mpr hne
      have hs : 0 < s.length := by omega
      cases f₂ with
      | zero => omega
      | succ g =>
        simp only [reSubGo, hF]
        rw [ih (s.drop (i + atoms.length)) g ?_ ?_]
        · simp only [List.length_drop]; omega
        · simp only [List.length_drop]; omega

/-- `re.sub` leaves the text unchanged when the search fails. -/
theorem reSub_none (atoms repl s : List Char) (h : reFind atoms s = none) :
    reSub atoms repl s = s := by
  cases s with
  | nil => rfl
  | cons c t =>
    simp only [reSub, lenAux_eq, Nat.zero_add, List.length_cons]
    simp [reSubGo, h]

/-- Step equation of `re.sub`: splice the replacement at the leftmost match
and continue after it. -/
theorem reSub_some (atoms repl : List Char) (hne : atoms ≠ []) (s : List Char)
    (i : Nat) (h : reFind atoms s = some i) :
    reSub atoms repl s =
      s.take i ++ repl ++ reSub atoms repl (s.drop (i + atoms.length)) := by
  have hb := reFind_bound atoms s i h
  have hpl : 0 < atoms.length := List.length_pos.mpr hne
  cases s with
  | nil => simp only [List.length_nil] at hb; omega
  | cons c t =>
    simp only [reSub, lenAux_eq, Nat.zero_add, List.length_cons]
    simp only [reSubGo, h]
    rw [reSubGo_congr atoms repl hne t.length ((c :: t).drop (i + atoms.length))
      ((c :: t).drop (i + atoms.length)).length ?_ ?_]
    · simp only [List.length_drop, List.length_cons] at hb ⊢; omega
    · exact Nat.le_refl _

/-- The fuel of `occsGo` is irrelevant once it covers the text length. -/
theorem occsGo_congr (atoms : List Char) (hne : atoms ≠ []) :
    ∀ (f₁ : Nat) (s : List Char) (f₂ : Nat), s.length ≤ f₁ → s.length ≤ f₂ →
      occsGo atoms f₁ s = occsGo atoms f₂ s := by
  intro f₁
  induction f₁ with
  | zero =>
    intro s f₂ h1 _
    have hs : s = [] := List.eq_nil_of_length_eq_zero (Nat.le_zero.mp h1)
    subst hs
    cases f₂ with
    | zero => rfl
    | succ g => simp [occsGo, reFind_nil_of_ne atoms hne]
  | succ f ih =>
    intro s f₂ h1 h2
    cases hF : reFind atoms s with
    | none =>
      cases f₂ with
      | zero =>
        have hs : s = [] := List.eq_nil_of_length_eq_zero (Nat.le_zero.mp h2)
        subst hs
        simp [occsGo, reFind_nil_of_ne atoms hne]
      | succ g => simp [occsGo, hF]
    | some i =>
      have hb := reFind_bound atoms s i hF
      have hpl : 0 < atoms.length := List.length_pos.mpr hne
      have hs : 0 < s.length := by omega
      cases f₂ with
      | zero => omega
      | succ g =>
        simp only [occsGo, hF]
        rw [ih (s.drop (i + atoms.length)) g ?_ ?_]
        · simp only [List.length_drop]; omega
        · simp only [List.length_drop]; omega

/-- `occs` is empty when the search fails. -/
theorem occs_none (atoms s : List Char) (h : reFind atoms s = none) :
    occs atoms s = [] := by
  cases s with
  | nil => rfl
  | cons c t =>
    simp only [occs, lenAux_eq, Nat.zero_add, List.length_cons]
    simp [occsGo, h]

/-- Step equation of `occs`: record the leftmost match position and continue
after the replaced block. -/
theorem occs_some (atoms : List Char) (hne : atoms ≠ []) (s : List Char)
    (i : Nat) (h : reFind atoms s = some i) :
    occs atoms s =
      i :: (occs atoms (s.drop (i + atoms.length))).map (· + (i + atoms.length)) := by
  have hb := reFind_bound atoms s i h
  have hpl : 0 < atoms.length := List.length_pos.mpr hne
  cases s with
  | nil => simp only [List.length_nil] at hb; omega
  | cons c t =>
    simp only [occs, lenAux_eq, Nat.zero_add, List.length_cons]
    simp only [occsGo, h]
    rw [occsGo_congr atoms hne t.length ((c :: t).drop (i + atoms.length))
      ((c :: t).drop (i + atoms.length)).length ?_ ?_]
    · simp only [List.length_drop, List.length_cons] at hb ⊢; omega
    · exact Nat.le_refl _

/-! ### Semantic lemmas -/

/-- The substring test is false exactly when the pattern matches nowhere. -/
theorem containsSubstr_false (pat s : List Char) :
    containsSubstr pat s = false ↔ ∀ j, ¬ pat <+: s.drop j := by
  rw [Bool.eq_false_iff, Ne, containsSubstr_iff]
  exact not_exists

/-- A list that is an initial segment of `a ++ b` and no longer than `a` is an
initial segment of `a`. -/
theorem pre_split_append (l a b : List Char) (h : l <+: a ++ b)
    (hle : l.length ≤ a.length) : l <+: a := by
  rw [List.prefix_iff_eq_take] at h
  rw [List.take_append_eq_append_take] at h
  have h0 : l.length - a.length = 0 := by omega
  rw [h0, List.take_zero, List.append_nil] at h
  refine ⟨a.drop l.length, ?_⟩
  nth_rewrite 1 [h]
  exact List.take_append_drop l.length a

/-- If `l` is an initial segment of `a ++ b` and at least as long as `a`, then
`a` is an initial segment of `l`. -/
theorem append_pre_of_le (l a b : List Char) (h : l <+: a ++ b)
    (hle : a.length ≤ l.length) : a <+: l := by
  obtain ⟨w, hw⟩ := h
  have ha : a <+: l ++ w := by rw [hw]; exact List.prefix_append a b
  exact pre_split_append a l w ha hle

/-- Global replacement is the identity on texts with no match. -/
theorem replaceAll_id_of_no_occ (pat repl : List Char) :
    ∀ s : List Char, (∀ j, ¬ pat <+: s.drop j) → replaceAll pat repl s = s := by
  intro s
  induction s with
  | nil => intro _; exact replaceAll_nil pat repl
  | cons c t ih =>
    intro h
    have hp : pfx pat (c :: t) = false := by
      rw [Bool.eq_false_iff, Ne, pfx_iff]
      simpa using h 0
    rw [replaceAll_cons_neg pat repl c t hp, ih fun j => by simpa using h (j + 1)]

/-- `re.sub` for a literal-fragment pattern is plain literal global
replacement. -/
theorem reSub_eq_replaceAll (pat repl : List Char) (hne : pat ≠ [])
    (s : List Char) : reSub pat repl s = replaceAll pat repl s := by
  have hpl : 0 < pat.length := List.length_pos.mpr hne
  cases hF : reFind pat s with
  | none =>
    rw [reSub_none pat repl s hF]
    exact (replaceAll_id_of_no_occ pat repl s (reFind_none pat hne s hF)).symm
  | some i =>
    cases i with
    | zero =>
      rw [reSub_some pat repl hne s 0 hF]
      have hp : pat <+: s := by simpa using (reFind_some pat s 0 hF).1
      cases s with
      | nil =>
        exact absurd (List.eq_nil_of_length_eq_zero (Nat.le_zero.mp hp.length_le)) hne
      | cons c t =>
        rw [replaceAll_cons_pos pat repl hne c t ((pfx_iff pat (c :: t)).mpr hp)]
        simp only [List.take_zero, List.nil_append, Nat.zero_add]
        congr 1
        exact reSub_eq_replaceAll pat repl hne ((c :: t).drop pat.length)
    | succ i =>
      cases s with
      | nil => rw [reFind_nil_of_ne pat hne] at hF; exact absurd hF (by simp)
      | cons c t =>
        have hp : pfx pat (c :: t) = false := by
          by_cases hp : pfx pat (c :: t) = true
          · exfalso
            simp only [reFind, hp, if_true] at hF
            simp at hF
          · rwa [Bool.not_eq_true] at hp
        have hFt : reFind pat t = some i := by
          simp only [reFind, hp, Bool.false_eq_true, if_false] at hF
          obtain ⟨a, ha, ha2⟩ := Option.map_eq_some'.mp hF
          have hai : a = i := by omega
          rw [← hai]
          exact ha
        rw [replaceAll_cons_neg pat repl c t hp]
        rw [reSub_some pat repl hne (c :: t) (i + 1) hF]
        rw [← reSub_eq_replaceAll pat repl hne t]
        rw [reSub_some pat repl hne t i hFt]
        have harith : i + 1 + pat.length = (i + pat.length) + 1 := by omega
        simp only [List.take_succ_cons, harith, List.drop_succ_cons, List.cons_append]
termination_by s.length
decreasing_by
  all_goals simp only [List.length_drop, List.length_cons]
  all_goals omega

/-- Global replacement never shortens the text when the replacement is at
least as long as the pattern. -/
theorem replaceAll_length_ge (pat repl : List Char) (hne : pat ≠ [])
    (hlen : pat.length ≤ repl.length) (s : List Char) :
    s.length ≤ (replaceAll pat repl s).length := by
  have hpl : 0 < pat.length := List.length_pos.mpr hne
  cases s with
  | nil => simp [replaceAll_nil]
  | cons c t =>
    by_cases hp : pfx pat (c :: t) = true
    · rw [replaceAll_cons_pos pat repl hne c t hp]
      have hple : pat.length ≤ t.length + 1 := by
        have := ((pfx_iff pat (c :: t)).mp hp).length_le
        simpa using this
      have hrec := replaceAll_length_ge pat repl hne hlen ((c :: t).drop pat.length)
      simp only [List.length_append, List.length_drop, List.length_cons] at hrec ⊢
      omega
    · rw [Bool.not_eq_true] at hp
      rw [replaceAll_cons_neg pat repl c t hp]
      have hrec := replaceAll_length_ge pat repl hne hlen t
      simp only [List.length_cons]
      omega
termination_by s.length
decreasing_by
  all_goals simp only [List.length_drop, List.length_cons]
  all_goals omega

/-- Global replacement strictly lengthens the text when the replacement is
longer than the pattern and a match exists. -/
theorem replaceAll_length_gt (pat repl : List Char) (hne : pat ≠ [])
    (hlt : pat.length < repl.length) (s : List Char)
    (hc : containsSubstr pat s = true) :
    s.length < (replaceAll pat repl s).length := by
  have hpl : 0 < pat.length := List.length_pos.mpr hne
  revert hc
  induction s with
  | nil =>
    intro hc
    exfalso
    rw [containsSubstr_iff] at hc
    obtain ⟨j, hj⟩ := hc
    rw [List.drop_nil] at hj
    exact hne (List.eq_nil_of_length_eq_zero (Nat.le_zero.mp hj.length_le))
  | cons c t ih =>
    intro hc
    by_cases hp : pfx pat (c :: t) = true
    · rw [replaceAll_cons_pos pat repl hne c t hp]
      have hple : pat.length ≤ t.length + 1 := by
        have := ((pfx_iff pat (c :: t)).mp hp).length_le
        simpa using this
      have hrec := replaceAll_length_ge pat repl hne (Nat.le_of_lt hlt)
        ((c :: t).drop pat.length)
      simp only [List.length_append, List.length_drop, List.length_cons] at hrec ⊢
      omega
    · rw [Bool.not_eq_true] at hp
      have hct : containsSubstr pat t = true := by
        simp only [containsSubstr, hp, Bool.false_or] at hc
        exact hc
      rw [replaceAll_cons_neg pat repl c t hp]
      have hrec := ih hct
      simp only [List.length_cons]
      omega

/-- A proper nonempty final segment of the pattern that is an initial segment
of a transformed text was already an initial segment of the original text:
the overlap side condition rules out starts inside a replacement block. -/
theorem replaceAll_sfx_pres (pat repl : List Char) (hne : pat ≠ [])
    (hlen : pat.length ≤ repl.length)
    (hsuf : ∀ j, pat.drop j ≠ [] → ¬ pat.drop j <+: repl) :
    ∀ (t : List Char) (j : Nat), 1 ≤ j → j < pat.length →
      pat.drop j <+: replaceAll pat repl t → pat.drop j <+: t := by
  intro t
  induction t with
  | nil =>
    intro j h1 h2 h
    rw [replaceAll_nil] at h
    have h3 := h.length_le
    simp only [List.length_drop, List.length_nil] at h3
    omega
  | cons c t ih =>
    intro j h1 h2 h
    by_cases hp : pfx pat (c :: t) = true
    · exfalso
      rw [replaceAll_cons_pos pat repl hne c t hp] at h
      have hql : (pat.drop j).length ≤ repl.length := by
        simp only [List.length_drop]
        omega
      have hq := pre_split_append (pat.drop j) repl _ h hql
      have hqne : pat.drop j ≠ [] := by
        intro hq0
        have hlz : pat.length - j = 0 := by rw [← List.length_drop, hq0]; rfl
        omega
      exact hsuf j hqne hq
    · rw [Bool.not_eq_true] at hp
      rw [replaceAll_cons_neg pat repl c t hp] at h
      have hd : pat.drop j = pat[j] :: pat.drop (j + 1) := List.drop_eq_getElem_cons h2
      rw [hd] at h ⊢
      rw [List.cons_prefix_cons] at h ⊢
      obtain ⟨hcj, hrest⟩ := h
      refine ⟨hcj, ?_⟩
      by_cases hj1 : j + 1 < pat.length
      · exact ih (j + 1) (by omega) hj1 hrest
      · have hdn : pat.drop (j + 1) = [] := List.drop_eq_nil_of_le (by omega)
        rw [hdn]
        exact ⟨t, rfl⟩

/-- Core reoccurrence analysis: under the overlap side conditions, the
pattern matches nowhere in the globally replaced text. -/
theorem replaceAll_no_occ (pat repl : List Char) (hne : pat ≠ [])
    (hlen : pat.length ≤ repl.length)
    (hinf : ∀ j, ¬ pat <+: repl.drop j)
    (hpre : ∀ j, repl.drop j ≠ [] → ¬ repl.drop j <+: pat)
    (hsuf : ∀ j, pat.drop j ≠ [] → ¬ pat.drop j <+: repl)
    (s : List Char) : ∀ j, ¬ pat <+: (replaceAll pat repl s).drop j := by
  have hpl : 0 < pat.length := List.length_pos.mpr hne
  cases s with
  | nil =>
    intro j h
    rw [replaceAll_nil, List.drop_nil] at h
    exact hne (List.eq_nil_of_length_eq_zero (Nat.le_zero.mp h.length_le))
  | cons c t =>
    by_cases hp : pfx pat (c :: t) = true
    · rw [replaceAll_cons_pos pat repl hne c t hp]
      intro j h
      rw [List.drop_append_eq_append_drop] at h
      by_cases hj : repl.length ≤ j
      · rw [List.drop_eq_nil_of_le hj, List.nil_append] at h
        exact replaceAll_no_occ pat repl hne hlen hinf hpre hsuf
          ((c :: t).drop pat.length) (j - repl.length) h
      · push_neg at hj
        by_cases hd : pat.length ≤ (repl.drop j).length
        · exact hinf j (pre_split_append pat (repl.drop j) _ h hd)
        · push_neg at hd
          have hdp := append_pre_of_le pat (repl.drop j) _ h (Nat.le_of_lt hd)
          have hdne : repl.drop j ≠ [] := by
            intro h0
            have hlz : repl.length - j = 0 := by rw [← List.length_drop, h0]; rfl
            omega
          exact hpre j hdne hdp
    · rw [Bool.not_eq_true] at hp
      rw [replaceAll_cons_neg pat repl c t hp]
      intro j h
      cases j with
      | succ j =>
        rw [List.drop_succ_cons] at h
        exact replaceAll_no_occ pat repl hne hlen hinf hpre hsuf t j h
      | zero =>
        rw [List.drop_zero] at h
        have hptrue : pat <+: c :: t := by
          cases hpat : pat with
          | nil => exact absurd hpat hne
          | cons p0 pm =>
            have h2 : p0 :: pm <+: c :: replaceAll pat repl t := by
              rw [← hpat]
              exact h
            rw [List.cons_prefix_cons] at h2
            obtain ⟨rfl, hpm⟩ := h2
            rw [List.cons_prefix_cons]
            refine ⟨rfl, ?_⟩
            by_cases hpm0 : pm = []
            · subst hpm0
              exact ⟨t, rfl⟩
            · have hpm_eq : pat.drop 1 = pm := by
                rw [hpat, List.drop_succ_cons, List.drop_zero]
              have h1lt : 1 < pat.length := by
                rw [hpat]
                simp only [List.length_cons]
                have := List.length_pos.mpr hpm0
                omega
              have hres := replaceAll_sfx_pres pat repl hne hlen hsuf t 1
                (Nat.le_refl 1) h1lt (by rw [hpm_eq]; exact hpm)
              rwa [hpm_eq] at hres
        rw [(pfx_iff pat (c :: t)).mpr hptrue] at hp
        exact absurd hp (by simp)
termination_by s.length
decreasing_by
  all_goals simp only [List.length_drop, List.length_cons]
  all_goals omega

/-- The replacement text sits at every former (greedy, non-overlapping) match
position of the substitution, shifted by the growth of the earlier
replacements. -/
theorem reSub_at_occs (pat repl : List Char) (hne : pat ≠ [])
    (hlen : pat.length ≤ repl.length) (s : List Char) :
    ∀ k p : Nat, (occs pat s)[k]? = some p →
      repl <+: (reSub pat repl s).drop (p + k * (repl.length - pat.length)) := by
  have hpl : 0 < pat.length := List.length_pos.mpr hne
  cases hF : reFind pat s with
  | none =>
    intro k p hkp
    rw [occs_none pat s hF] at hkp
    simp at hkp
  | some i =>
    have hb := reFind_bound pat s i hF
    have hti : (s.take i).length = i := by
      rw [List.length_take]
      omega
    rw [occs_some pat hne s i hF, reSub_some pat repl hne s i hF]
    intro k p hkp
    cases k with
    | zero =>
      rw [List.getElem?_cons_zero, Option.some_inj] at hkp
      subst hkp
      simp only [Nat.zero_mul, Nat.add_zero]
      rw [List.append_assoc, List.drop_append_eq_append_drop, hti, Nat.sub_self,
        List.drop_zero, List.drop_eq_nil_of_le (by omega), List.nil_append]
      exact List.prefix_append repl _
    | succ k =>
      rw [List.getElem?_cons_succ, List.getElem?_map] at hkp
      cases hq : (occs pat (s.drop (i + pat.length)))[k]? with
      | none => rw [hq] at hkp; simp at hkp
      | some q =>
        rw [hq] at hkp
        simp only [Option.map_some', Option.some_inj] at hkp
        subst hkp
        have hrec := reSub_at_occs pat repl hne hlen (s.drop (i + pat.length)) k q hq
        rw [Nat.succ_mul, List.append_assoc]
        have harith :
            q + (i + pat.length) + (k * (repl.length - pat.length) +
                (repl.length - pat.length)) =
              (s.take i).length +
                (repl.length + (q + k * (repl.length - pat.length))) := by
          rw [hti]
          generalize k * (repl.length - pat.length) = m
          omega
        rw [harith, List.drop_append, List.drop_append]
        exact hrec
termination_by s.length
decreasing_by
  simp only [List.length_drop]
  omega

/-- The diagnostic line scan reports `k + 1` when line `k` (0-indexed) is the
first line containing the marker. -/
theorem findMarker_some (ls : List (List Char)) :
    ∀ (k : Nat) (hk : k < ls.length),
      containsSubstr marker.data (ls.get ⟨k, hk⟩) = true →
      (∀ (j : Nat) (hj : j < k),
        containsSubstr marker.data (ls.get ⟨j, Nat.lt_trans hj hk⟩) = false) →
      findMarker ls = some (k + 1) := by
  induction ls with
  | nil => intro k hk; simp at hk
  | cons l ls ih =>
    intro k hk hhit hmiss
    cases k with
    | zero =>
      simp only [List.get_eq_getElem, List.getElem_cons_zero] at hhit
      simp [findMarker, hhit]
    | succ k =>
      have h0 : containsSubstr marker.data l = false := by
        have := hmiss 0 (Nat.succ_pos k)
        simpa only [List.get_eq_getElem, List.getElem_cons_zero] using this
      have hk2 : k < ls.length := by
        simp only [List.length_cons] at hk
        omega
      have hrec := ih k hk2
        (by simpa only [List.get_eq_getElem, List.getElem_cons_succ] using hhit)
        (fun j hj => by
          have := hmiss (j + 1) (by omega)
          simpa only [List.get_eq_getElem, List.getElem_cons_succ] using this)
      simp [findMarker, h0, hrec]

/-- The diagnostic line scan reports nothing when no line contains the
marker. -/
theorem findMarker_none (ls : List (List Char))
    (h : ∀ l ∈ ls, containsSubstr marker.data l = false) :
    findMarker ls = none := by
  induction ls with
  | nil => rfl
  | cons l ls ih =>
    have h0 := h l (List.mem_cons_self l ls)
    simp [findMarker, h0, ih fun x hx => h x (List.mem_cons_of_mem l hx)]

/-! ### Certificates about the concrete pattern, replacement and marker -/

/-- The pattern `old_inbound` lies in the literal regex fragment and denotes
exactly the literal text `old_literal`. -/
theorem parse_old_inbound :
    parseLiteralPattern old_inbound.data = some old_literal.data := by decide!

/-- The compiled atom list of the script's pattern is the literal old block. -/
theorem oldAtoms_eq : oldAtoms = old_literal.data := by
  simp only [oldAtoms, parse_old_inbound, Option.getD_some]

/-- The literal old block is nonempty. -/
theorem old_ne_nil : old_literal.data ≠ [] := by decide!

/-- The replacement text contains no backslash, hence `re.sub` treats it as a
plain literal (no group references or escapes). -/
theorem new_no_backslash : (new_inbound.data.all fun c => c != '\\') = true := by decide!

/-- The literal old block is strictly shorter than the replacement text. -/
theorem old_length_lt_new : old_literal.data.length < new_inbound.data.length := by
  have h : lenAux 0 old_literal.data < lenAux 0 new_inbound.data := by decide!
  rwa [lenAux_eq, lenAux_eq, Nat.zero_add, Nat.zero_add] at h

/-- The literal old block does not occur inside the replacement text. -/
theorem old_not_in_new :
    containsSubstr old_literal.data new_inbound.data = false := by decide!

/-- No nonempty suffix of the replacement text is an initial segment of the
old block. -/
theorem noSufPfx_old_new : noSufPfx old_literal.data new_inbound.data = true := by decide!

/-- No nonempty suffix of the old block is an initial segment of the
replacement text. -/
theorem noSufPfx_new_old : noSufPfx new_inbound.data old_literal.data = true := by decide!

/-- Bundle of the reoccurrence side conditions at the script's concrete
pattern and replacement: after the substitution the old block matches
nowhere. -/
theorem reSub_no_occ_old_new (s : List Char) :
    ∀ j, ¬ old_literal.data <+:
      (reSub old_literal.data new_inbound.data s).drop j := by
  rw [reSub_eq_replaceAll old_literal.data new_inbound.data old_ne_nil s]
  exact replaceAll_no_occ old_literal.data new_inbound.data old_ne_nil
    (Nat.le_of_lt old_length_lt_new)
    ((containsSubstr_false _ _).mp old_not_in_new)
    (noSufPfx_spec old_literal.data new_inbound.data noSufPfx_old_new)
    (noSufPfx_spec new_inbound.data old_literal.data noSufPfx_new_old)
    s

/-! ### Claim theorems -/

/-- Claim C1: for every initial content, the content written by a completed
run differs from the loaded content iff the search pattern matched; when the
pattern does not match, the script still performs exactly one write, whose
content is identical to what was read. -/
theorem spec_c1 (c : List Char) :
    ((run c).written ≠ c ↔ reSearch oldAtoms c = true) ∧
      (reSearch oldAtoms c = false → scriptWrites (.ok c) = [c]) := by
  constructor
  · constructor
    · intro hw
      by_cases h : reSearch oldAtoms c = true
      · exact h
      · exfalso
        rw [Bool.not_eq_true] at h
        exact hw (by simp [run, h])
    · intro h
      have hc : containsSubstr old_literal.data c = true := by
        rw [← reSearch_eq_containsSubstr, ← oldAtoms_eq]
        exact h
      have hwr : (run c).written = reSub oldAtoms new_inbound.data c := by
        simp [run, h]
      rw [hwr, oldAtoms_eq, reSub_eq_replaceAll _ _ old_ne_nil]
      intro heq
      have hgt := replaceAll_length_gt old_literal.data new_inbound.data old_ne_nil
        old_length_lt_new c hc
      rw [heq] at hgt
      exact Nat.lt_irrefl _ hgt
  · intro h
    simp [scriptWrites, run, h]

/-- Witness for C1 at a concrete non-matching content. -/
theorem spec_c1_witness :
    reSearch oldAtoms "abc".data = false ∧
      scriptWrites (.ok "abc".data) = ["abc".data] :=
  ⟨by decide!, (spec_c1 "abc".data).2 (by decide!)⟩

/-- Claim C2: when the pattern matches, the written content is the global
non-overlapping substitution (every occurrence of the pattern is replaced,
so the pattern no longer occurs in the written text), and the result is
persisted by exactly one write regardless of the branch. -/
theorem spec_c2 (c : List Char) :
    scriptWrites (.ok c) = [(run c).written] ∧
      (reSearch oldAtoms c = true →
        (run c).written = reSub oldAtoms new_inbound.data c ∧
          containsSubstr old_literal.data ((run c).written) = false) := by
  refine ⟨rfl, ?_⟩
  intro h
  have hwr : (run c).written = reSub oldAtoms new_inbound.data c := by
    simp [run, h]
  refine ⟨hwr, ?_⟩
  rw [hwr, oldAtoms_eq, containsSubstr_false]
  exact reSub_no_occ_old_new c

/-- Witness for C2 at the old block itself. -/
theorem spec_c2_witness :
    reSearch oldAtoms old_literal.data = true ∧
      (run old_literal.data).written =
        reSub oldAtoms new_inbound.data old_literal.data :=
  ⟨by decide!, ((spec_c2 old_literal.data).2 (by decide!)).1⟩

/-- Claim C3: when the pattern does not match, the in-memory transform
returns its input unchanged. -/
theorem spec_c3 (c : List Char) (h : reSearch oldAtoms c = false) :
    transform c = c := by
  simp [transform, h]

/-- Witness for C3 at a concrete non-matching content. -/
theorem spec_c3_witness :
    reSearch oldAtoms "hello".data = false ∧
      transform "hello".data = "hello".data :=
  ⟨by decide!, spec_c3 "hello".data (by decide!)⟩

/-- Claim C4: when the pattern matches, the replacement text appears at each
former match position (the k-th greedy occurrence at position p appears at
the shifted position p + k·(growth) of the written text) and the pattern no
longer matches anywhere in the written text. -/
theorem spec_c4 (c : List Char) (h : containsSubstr old_literal.data c = true) :
    (∀ k p : Nat, (occs old_literal.data c)[k]? = some p →
        new_inbound.data <+:
          ((run c).written).drop
            (p + k * (new_inbound.data.length - old_literal.data.length))) ∧
      containsSubstr old_literal.data ((run c).written) = false := by
  have hs : reSearch oldAtoms c = true := by
    rw [oldAtoms_eq, reSearch_eq_containsSubstr]
    exact h
  have hwr : (run c).written = reSub oldAtoms new_inbound.data c := by
    simp [run, hs]
  constructor
  · intro k p hkp
    rw [hwr, oldAtoms_eq]
    exact reSub_at_occs old_literal.data new_inbound.data old_ne_nil
      (Nat.le_of_lt old_length_lt_new) c k p hkp
  · rw [hwr, oldAtoms_eq, containsSubstr_false]
    exact reSub_no_occ_old_new c

/-- Witness for C4 at the old block itself. -/
theorem spec_c4_witness :
    containsSubstr old_literal.data old_literal.data = true ∧
      containsSubstr old_literal.data ((run old_literal.data).written) = false :=
  ⟨by decide!, (spec_c4 old_literal.data (by decide!)).2⟩

/-- Claim C5: the diagnostic scan splits the text at newlines and reports the
1-indexed number of the first line containing the literal marker substring
(for a text whose first marker line is line k+1 it reports k+1), and reports
nothing for a text none of whose lines contains the marker. -/
theorem spec_c5 :
    (∀ (s : List Char) (k : Nat) (hk : k < (splitNl s).length),
        containsSubstr marker.data ((splitNl s).get ⟨k, hk⟩) = true →
        (∀ (j : Nat) (hj : j < k),
          containsSubstr marker.data
            ((splitNl s).get ⟨j, Nat.lt_trans hj hk⟩) = false) →
        diagnosticScan s = some (k + 1)) ∧
      (∀ s : List Char,
        (∀ l ∈ splitNl s, containsSubstr marker.data l = false) →
        diagnosticScan s = none) := by
  constructor
  · intro s k hk h1 h2
    exact findMarker_some (splitNl s) k hk h1 h2
  · intro s h
    exact findMarker_none (splitNl s) h

/-- Witness for C5: a three-line text whose second line contains the marker
is reported at line 2. -/
theorem spec_c5_witness :
    diagnosticScan
      "alpha\nsee msg.senderType === \x27staff\x27 ? \x27👨‍💼\x27 : \x27👤\x27 here\nomega".data =
      some 2 :=
  spec_c5.1
    "alpha\nsee msg.senderType === \x27staff\x27 ? \x27👨‍💼\x27 : \x27👤\x27 here\nomega".data
    1 (by decide!) (by decide!)
    (by
      intro j hj
      have hj0 : j = 0 := by omega
      subst hj0
      show containsSubstr marker.data
        ((splitNl
          "alpha\nsee msg.senderType === \x27staff\x27 ? \x27👨‍💼\x27 : \x27👤\x27 here\nomega".data).get
          ⟨0, by decide⟩) = false
      decide)

/-- Claim C6: when loading fails, the error propagates: no write to the
target file is attempted (the on-disk content is untouched) and the process
produces no completed run. -/
theorem spec_c6 : scriptWrites .ioError = [] ∧ scriptResult .ioError = none :=
  ⟨rfl, rfl⟩

/-- Claim C7: every completed run exits with status 0 — the exit code never
distinguishes the branches — and prints, in order, exactly one branch status
line (the match line, or the no-match line followed by a found-line
diagnostic exactly when the marker scan finds a line), then the completion
message. -/
theorem spec_c7 (c : List Char) :
    (run c).exitCode = 0 ∧
      ((reSearch oldAtoms c = true ∧ (run c).printed = [msgMatched, msgDone]) ∨
        (reSearch oldAtoms c = false ∧
          ((∃ k, diagnosticScan c = some k ∧
              (run c).printed = [msgNoMatch, foundLine k, msgDone]) ∨
            (diagnosticScan c = none ∧
              (run c).printed = [msgNoMatch, msgDone])))) := by
  by_cases h : reSearch oldAtoms c = true
  · exact ⟨by simp [run, h], Or.inl ⟨h, by simp [run, h]⟩⟩
  · rw [Bool.not_eq_true] at h
    refine ⟨by simp [run, h], Or.inr ⟨h, ?_⟩⟩
    cases hd : diagnosticScan c with
    | some k => exact Or.inl ⟨k, rfl, by simp [run, h, hd]⟩
    | none => exact Or.inr ⟨rfl, by simp [run, h, hd]⟩

/-- Claim C8: round-trip — on the no-match path the run writes back exactly
the text it loaded, leaving the file content identical (the model works on
the decoded text; the fixed encoding on both sides makes the write
byte-identical to the read). -/
theorem spec_c8 (c : List Char) (h : reSearch oldAtoms c = false) :
    (run c).written = c := by
  simp [run, h]

/-- Witness for C8 at the empty content. -/
theorem spec_c8_witness :
    reSearch oldAtoms "".data = false ∧ (run "".data).written = "".data :=
  ⟨by decide!, spec_c8 "".data (by decide!)⟩

/-- Claim C9: the fixed pattern is an escaped literal (it parses in the
literal regex fragment to exactly the old block) and the fixed replacement
contains no backslash, so on every text the regex operations coincide with
plain literal string operations: `re.search` is substring containment of the
old block and `re.sub` is literal global replacement of the old block by the
new block. -/
theorem spec_c9 :
    parseLiteralPattern old_inbound.data = some old_literal.data ∧
      (new_inbound.data.all fun c => c != '\\') = true ∧
      ∀ s : List Char,
        reSearch oldAtoms s = containsSubstr old_literal.data s ∧
          reSub oldAtoms new_inbound.data s =
            replaceAll old_literal.data new_inbound.data s := by
  refine ⟨parse_old_inbound, new_no_backslash, ?_⟩
  intro s
  rw [oldAtoms_eq]
  exact ⟨reSearch_eq_containsSubstr old_literal.data s,
    reSub_eq_replaceAll old_literal.data new_inbound.data old_ne_nil s⟩

/-- Claim C10: the in-memory transform is idempotent: after one application
the pattern no longer matches, so a second application changes nothing. -/
theorem spec_c10 (s : List Char) : transform (transform s) = transform s := by
  by_cases h : reSearch oldAtoms s = true
  · have ht : transform s = reSub oldAtoms new_inbound.data s := by
      simp [transform, h]
    have hnofind : reSearch oldAtoms (transform s) = false := by
      rw [ht, oldAtoms_eq, reSearch_eq_containsSubstr, containsSubstr_false]
      exact reSub_no_occ_old_new s
    have hunf : transform (transform s) =
        if reSearch oldAtoms (transform s) then
          reSub oldAtoms new_inbound.data (transform s)
        else transform s := rfl
    rw [hunf, hnofind]
    simp
  · rw [Bool.not_eq_true] at h
    have ht : transform s = s := by simp [transform, h]
    rw [ht, ht]

end AutolumikuFix
